import Mathlib

/-!
# insn_bench_aarch64, `src/utils.cc`

A shallow embedding of the utility layer of the benchmark harness:

* the external probe runner `run_command` with the two system-information
  dumps `dump_uname_a` and `dump_cpuinfo` built on it;
* the frequency calibrator `estimate_cpu_freq_core` / `estimate_cpu_freq`.

Conventions of the embedding.

* `double` values are exact rationals (`ℚ`); rounding is not modelled.
* `size_t` values are naturals reduced modulo `2 ^ 64`.
* A byte is a natural number below 256; a heap cell is `Option Nat`, where
  `none` is a cell whose value is indeterminate (allocated, never stored to).
* A heap block knows its size.  A store outside the block does not change the
  block and raises the block's `oob` flag.
* The report sink (`notes`, declared in `utils.h`) is the list of the member
  calls made on it, in order.
* The timing primitive (`bench::lat_`, declared in `utils.h`) is a tape
  `lat : Nat → ℚ`: `lat k` is the ratio handed back by the call number `k`
  (counting from zero) made during the run.
-/

namespace InsnBench

/-! ## Report sink -/

/-- One variadic argument of a `printf`-style sink call. -/
inductive Arg where
  | str (s : String)
  | size (n : Nat)
  | dbl (x : ℚ)
  deriving DecidableEq

/-- A heap block of bytes: `mem` holds one cell per allocated byte, `oob`
records that some store fell outside the block. -/
structure Block where
  mem : List (Option Nat)
  oob : Bool
  deriving DecidableEq

/-- A member call on a `notes` object. -/
inductive NoteCall where
  | ctor (md : Bool) (title : String)
  | put (fmt : String) (args : List Arg)
  | newline
  | item (fmt : String) (args : List Arg)
  | quote (s : Block)
  deriving DecidableEq

/-! ## Frequency calibrator -/

/-- The constant `coef` of `estimate_cpu_freq_core`. -/
def coef : ℚ := 100000000

/-- The assumed latency of a 64-bit add, `#define ADD_LATENCY_CYCLES ((size_t)1)`. -/
def ADD_LATENCY_CYCLES : Nat := 1

/-- The loop `for(i = 0; i < 3; i++) r = b.lat_(...).lat;` with `todo` rounds
left: the state is the current `r` and the number of primitive calls made. -/
def lat_loop (lat : Nat → ℚ) : Nat → ℚ × Nat → ℚ × Nat
  | 0, st => st
  | todo + 1, st => lat_loop lat todo (lat st.2, st.2 + 1)

/-- Embedding of `estimate_cpu_freq_core`: returns the estimate and the call
counter of the timing primitive after the three measurements. -/
def estimate_cpu_freq_core (lat : Nat → ℚ) (calls : Nat) : ℚ × Nat :=
  let st := lat_loop lat 3 (0, calls)
  (coef / ((ADD_LATENCY_CYCLES : ℚ) * st.1), st.2)

/-- State of the trial loop of `estimate_cpu_freq`. -/
structure FreqState where
  sum : ℚ
  n : List NoteCall
  calls : Nat

/-- The loop `for(i = 0; i < trials; i++) { f = core(); n.item(...); sum += f; }`
with `todo` rounds left. -/
def trial_loop (lat : Nat → ℚ) : Nat → FreqState → FreqState
  | 0, st => st
  | todo + 1, st =>
    let f := estimate_cpu_freq_core lat st.calls
    trial_loop lat todo
      { sum := st.sum + f.1
        n := st.n ++ [NoteCall.item "%.2f MHz" [Arg.dbl (f.1 / 1000000)]]
        calls := f.2 }

/-- The sink calls made by `estimate_cpu_freq` before its loop. -/
def freq_header (md : Bool) : List NoteCall :=
  [ NoteCall.ctor md "CPU frequency estimation",
    NoteCall.put
      "measuring CPU frequency, assuming latency of 64bit addition is %zu cycle(s):"
      [Arg.size ADD_LATENCY_CYCLES],
    NoteCall.newline ]

/-- The state in which `estimate_cpu_freq` leaves its loop. -/
def estimate_cpu_freq_run (lat : Nat → ℚ) (md : Bool) (trials calls : Nat) : FreqState :=
  trial_loop lat trials { sum := 0, n := freq_header md, calls := calls }

/-- Embedding of `estimate_cpu_freq`: the returned mean. -/
def estimate_cpu_freq (lat : Nat → ℚ) (md : Bool) (trials calls : Nat) : ℚ :=
  (estimate_cpu_freq_run lat md trials calls).sum / (trials : ℚ)

/-- The estimate of trial number `i` (from zero) of a run started when the
timing primitive had been called `calls` times: every trial makes three calls. -/
def trial_estimate (lat : Nat → ℚ) (calls i : Nat) : ℚ :=
  (estimate_cpu_freq_core lat (calls + 3 * i)).1

/-- The sink call `n.item("%.2f MHz", f / 1000000.0)` of trial number `i`. -/
def trial_item (lat : Nat → ℚ) (calls i : Nat) : NoteCall :=
  NoteCall.item "%.2f MHz" [Arg.dbl (trial_estimate lat calls i / 1000000)]

/-! ## External probe runner -/

/-- Reduction of a natural number to the range of `size_t` (64 bits). -/
def size_t (n : Nat) : Nat := n % 2 ^ 64

/-- A fresh block of `size` indeterminate cells (`malloc`; allocation is taken
to succeed). -/
def malloc (size : Nat) : Block :=
  { mem := List.replicate size none, oob := false }

/-- Resizing of a block to `size` cells (`realloc`; allocation is taken to
succeed): the common prefix is kept, new cells are indeterminate. -/
def realloc (b : Block) (size : Nat) : Block :=
  { mem := b.mem.take size ++ List.replicate (size - b.mem.length) none, oob := b.oob }

/-- The store `b[i] = v`.  Outside the block nothing is stored and the block
is flagged. -/
def store (b : Block) (i v : Nat) : Block :=
  if i < b.mem.length then { b with mem := b.mem.set i (some v) } else { b with oob := true }

/-- The copy `memcpy(&b[off], src, len src)`, byte by byte. -/
def memcpy (b : Block) (off : Nat) : List Nat → Block
  | [] => b
  | v :: vs => memcpy (store b off v) (off + 1) vs

/-- The characters one `fgets` call takes from the stream `fp` when it may
take at most `room` of them: it stops after a newline (byte 10), at the end of
the stream, or when the room is used up.  Returns the characters taken and the
rest of the stream. -/
def fgets_read : List Nat → Nat → List Nat × List Nat
  | [], _ => ([], [])
  | c :: fp, room =>
    if room = 0 then ([], c :: fp)
    else if c = 10 then ([c], fp)
    else ((c :: (fgets_read fp (room - 1)).1), (fgets_read fp (room - 1)).2)

/-- The call `fgets(buf, size, fp)`: `none` (NULL) at the end of the stream,
otherwise the new content of `buf` (the characters taken, at most `size - 1`,
followed by a 0 byte) and the rest of the stream. -/
def fgets (size : Nat) (fp : List Nat) : Option (List Nat × List Nat) :=
  match fp with
  | [] => none
  | _ :: _ => some ((fgets_read fp (size - 1)).1 ++ [0], (fgets_read fp (size - 1)).2)

/-- The call `strlen(buf)`: the number of bytes before the first 0 byte. -/
def strlen : List Nat → Nat
  | [] => 0
  | c :: cs => if c = 0 then 0 else strlen cs + 1

/-- The constant `buf_size` of `run_command`. -/
def buf_size : Nat := 1024 * 1024

/-- The local variables `cap`, `used` and the block `dst` of `run_command`. -/
structure ReadState where
  cap : Nat
  used : Nat
  dst : Block
  deriving DecidableEq

/-- The state before the read loop: `cap = 1024, used = 0, dst = malloc(cap)`. -/
def read_init : ReadState :=
  { cap := 1024, used := 0, dst := malloc 1024 }

/-- The value of `cap` after `if(used + bytes >= cap) { ... (cap *= 2) }`. -/
def grow (cap used bytes : Nat) : Nat :=
  if size_t (used + bytes) ≥ cap then size_t (cap * 2) else cap

/-- One round of the read loop on the freshly filled read buffer `buf`. -/
def read_step (st : ReadState) (buf : List Nat) : ReadState :=
  let bytes := strlen buf
  let cap := grow st.cap st.used bytes
  let dst := if size_t (st.used + bytes) ≥ st.cap then realloc st.dst cap else st.dst
  let dst := memcpy dst st.used (buf.take bytes)
  let used := size_t (st.used + bytes)
  { cap := cap, used := used, dst := store dst used 0 }

/-- The loop `while(fgets(buf, buf_size - 1, fp) != NULL) { ... }`, for at most
`fuel` calls of `fgets`. -/
def read_loop : Nat → List Nat → ReadState → ReadState
  | 0, _, st => st
  | fuel + 1, fp, st =>
    match fgets (buf_size - 1) fp with
    | none => st
    | some r => read_loop fuel r.2 (read_step st r.1)

/-- The state in which `run_command` leaves its loop on the stream `fp`.  Every
successful `fgets` takes at least one byte, so `fp.length + 1` calls reach the
end of the stream (`read_loop_fuel`). -/
def read_all (fp : List Nat) : ReadState :=
  read_loop (fp.length + 1) fp read_init

/-- The operating system as seen by `popen(cmd, "r")`: `popen cmd` is `none`
when no process could be spawned and otherwise the bytes the child writes on
its standard output; `cmds` logs the commands handed to `popen`. -/
structure OS where
  popen : String → Option (List Nat)
  cmds : List String

/-- Embedding of `run_command`: the returned pointer (`none` is NULL, otherwise
the block `dst`) and the operating system afterwards. -/
def run_command (os : OS) (cmd : String) : Option Block × OS :=
  match os.popen cmd with
  | none => (none, { os with cmds := os.cmds ++ [cmd] })
  | some fp => (some (read_all fp).dst, { os with cmds := os.cmds ++ [cmd] })

/-- The C string a caller scans from the start of a block: the bytes before
the first 0 byte.  `none` when the scan meets an indeterminate cell or runs
off the block. -/
def c_str : List (Option Nat) → Option (List Nat)
  | [] => none
  | none :: _ => none
  | some c :: cs => if c = 0 then some [] else (c_str cs).map (fun t => c :: t)

/-- The two build targets for which `dump_cpuinfo` declares its command. -/
inductive Target where
  | apple
  | linux
  deriving DecidableEq

/-- The tail shared by both dumps:
`if(s) { n.quote(s); } else { n.put("(not available)"); }`. -/
def dump_result (s : Option Block) : NoteCall :=
  match s with
  | some b => NoteCall.quote b
  | none => NoteCall.put "(not available)" []

/-- Embedding of `dump_uname_a`: the calls made on the sink `n` and the
operating system afterwards. -/
def dump_uname_a (os : OS) (md : Bool) : List NoteCall × OS :=
  let cmd := "uname -a"
  let s := run_command os cmd
  ([NoteCall.ctor md "uname -a", NoteCall.put "`%s`:" [Arg.str cmd], dump_result s.1], s.2)

/-- The command `dump_cpuinfo` is compiled with. -/
def cpuinfo_cmd : Target → String
  | Target.apple => "system_profiler SPHardwareDataType"
  | Target.linux => "lscpu"

/-- Embedding of `dump_cpuinfo`: the calls made on the sink `n` and the
operating system afterwards. -/
def dump_cpuinfo (pf : Target) (os : OS) (md : Bool) : List NoteCall × OS :=
  let cmd := cpuinfo_cmd pf
  let s := run_command os cmd
  ([NoteCall.ctor md "Processor inforomation", NoteCall.put "`%s`:" [Arg.str cmd],
    dump_result s.1], s.2)

/-- An operating system in which every command is spawned and prints nothing
on its standard output (a silent command, or a shell that only complains on
its standard error because the command does not exist). -/
def os_silent : OS :=
  { popen := fun _ => some [], cmds := [] }

/-- An operating system in which no process can be spawned. -/
def os_nospawn : OS :=
  { popen := fun _ => none, cmds := [] }

/-- An operating system in which every command prints `k` times the letter
`a` (byte 97) on one line without a line end. -/
def os_long (k : Nat) : OS :=
  { popen := fun _ => some (List.replicate k 97), cmds := [] }

/-- The output of a command that prints the given lines, each one closed by a
line end (byte 10). -/
def text_of_lines : List (List Nat) → List Nat
  | [] => []
  | l :: ls => l ++ 10 :: text_of_lines ls

/-- The loop state `st` holds the text `t` without any store outside the
block: the block has `cap` bytes, `used` counts `t` and is below `cap`, and
the first `used` cells hold `t`. -/
def Captured (st : ReadState) (t : List Nat) : Prop :=
  st.dst.mem.length = st.cap ∧ st.dst.oob = false ∧ 1024 ≤ st.cap ∧
    st.used = t.length ∧ st.used < st.cap ∧ st.dst.mem.take st.used = t.map some

instance (st : ReadState) (t : List Nat) : Decidable (Captured st t) := by
  unfold Captured
  infer_instance

/-! ## Frequency calibrator: lemmas -/

/-- The core makes three calls and keeps the ratio of the third one. -/
theorem estimate_cpu_freq_core_eq (lat : Nat → ℚ) (c : Nat) :
    estimate_cpu_freq_core lat c = (coef / ((ADD_LATENCY_CYCLES : ℚ) * lat (c + 2)), c + 3) := by
  simp [estimate_cpu_freq_core, lat_loop]

theorem trial_estimate_eq (lat : Nat → ℚ) (c i : Nat) :
    trial_estimate lat c i = 100000000 / lat (c + 3 * i + 2) := by
  simp [trial_estimate, estimate_cpu_freq_core_eq, coef, ADD_LATENCY_CYCLES]

theorem trial_estimate_succ (lat : Nat → ℚ) (c i : Nat) :
    trial_estimate lat c (i + 1) = trial_estimate lat (c + 3) i := by
  simp only [trial_estimate]
  congr 2
  ring

theorem trial_loop_spec (lat : Nat → ℚ) :
    ∀ (k : Nat) (st : FreqState),
      (trial_loop lat k st).sum
          = st.sum + ∑ i in Finset.range k, trial_estimate lat st.calls i ∧
      (trial_loop lat k st).n = st.n ++ (List.range k).map (trial_item lat st.calls) ∧
      (trial_loop lat k st).calls = st.calls + 3 * k := by
  intro k
  induction k with
  | zero => intro st; simp [trial_loop]
  | succ k ih =>
    intro st
    obtain ⟨h1, h2, h3⟩ := ih
      { sum := st.sum + (estimate_cpu_freq_core lat st.calls).1
        n := st.n ++ [NoteCall.item "%.2f MHz"
          [Arg.dbl ((estimate_cpu_freq_core lat st.calls).1 / 1000000)]]
        calls := (estimate_cpu_freq_core lat st.calls).2 }
    have hc : (estimate_cpu_freq_core lat st.calls).2 = st.calls + 3 := by
      rw [estimate_cpu_freq_core_eq]
    have h0 : (estimate_cpu_freq_core lat st.calls).1 = trial_estimate lat st.calls 0 := by
      simp [trial_estimate]
    simp only [hc] at h1 h2 h3
    refine ⟨?_, ?_, ?_⟩
    · rw [trial_loop, hc, h1, Finset.sum_range_succ', h0]
      simp only [trial_estimate_succ]
      ring
    · rw [trial_loop, hc, h2, List.range_succ_eq_map, h0]
      simp only [List.map_cons, List.map_map, List.append_assoc, List.singleton_append]
      congr 2
      apply List.map_congr_left
      intro i _
      simp [trial_item, trial_estimate_succ]
    · rw [trial_loop, hc, h3]
      ring

/-! ## Frequency calibrator: properties of the specification -/

/-- C1. With the timing primitive stubbed to hand back the same non-zero ratio
`r` on every call, `estimate_cpu_freq` with `N ≥ 1` trials returns exactly
`coef / (ADD_LATENCY_CYCLES * r)`, that is `10^8 / r` (exact arithmetic). -/
theorem estimate_cpu_freq_stub (lat : Nat → ℚ) (md : Bool) (N c : Nat) (r : ℚ)
    (hN : 1 ≤ N) (hr : r ≠ 0) (hlat : ∀ k, lat k = r) :
    estimate_cpu_freq lat md N c = coef / ((ADD_LATENCY_CYCLES : ℚ) * r) ∧
      estimate_cpu_freq lat md N c = 100000000 / r := by
  have hsum := (trial_loop_spec lat N { sum := 0, n := freq_header md, calls := c }).1
  have hN0 : (N : ℚ) ≠ 0 := by
    have : 0 < N := hN
    exact_mod_cast this.ne'
  have key : estimate_cpu_freq lat md N c = 100000000 / r := by
    unfold estimate_cpu_freq estimate_cpu_freq_run
    rw [hsum]
    simp only [trial_estimate_eq, hlat, Finset.sum_const, Finset.card_range, zero_add,
      nsmul_eq_mul]
    field_simp
    ring
  refine ⟨?_, key⟩
  rw [key]
  simp [coef, ADD_LATENCY_CYCLES]

theorem estimate_cpu_freq_stub_witness :
    estimate_cpu_freq (fun _ => 4) true 3 0 = 100000000 / 4 :=
  (estimate_cpu_freq_stub (fun _ => 4) true 3 0 4 (by decide) (by norm_num) (fun _ => rfl)).2

/-- C2. With `N ≥ 1` trials and a timing primitive that only hands back
strictly positive ratios, `estimate_cpu_freq` computes `N` per-trial estimates
(three primitive calls each), every one strictly positive; after its three
header calls the sink receives exactly `N` items, in trial order, the `i`-th
one reporting the `i`-th estimate divided by `1000000`; and the value returned
is the sum of these `N` estimates divided by `N`. -/
theorem estimate_cpu_freq_mean (lat : Nat → ℚ) (md : Bool) (N c : Nat)
    (hN : 1 ≤ N) (hpos : ∀ k, 0 < lat k) :
    (∀ i, 0 < trial_estimate lat c i) ∧
      (estimate_cpu_freq_run lat md N c).n
          = freq_header md ++ (List.range N).map (trial_item lat c) ∧
      ((estimate_cpu_freq_run lat md N c).n.drop 3).length = N ∧
      (estimate_cpu_freq_run lat md N c).calls = c + 3 * N ∧
      estimate_cpu_freq lat md N c
          = (∑ i in Finset.range N, trial_estimate lat c i) / (N : ℚ) := by
  obtain ⟨h1, h2, h3⟩ := trial_loop_spec lat N { sum := 0, n := freq_header md, calls := c }
  have _ := hN
  refine ⟨?_, h2, ?_, h3, ?_⟩
  · intro i
    rw [trial_estimate_eq]
    exact div_pos (by norm_num) (hpos _)
  · unfold estimate_cpu_freq_run
    rw [h2]
    simp [freq_header]
  · unfold estimate_cpu_freq estimate_cpu_freq_run
    rw [h1]
    simp

theorem estimate_cpu_freq_mean_witness :
    estimate_cpu_freq (fun k => (k : ℚ) + 1) false 2 0
      = (∑ i in Finset.range 2, trial_estimate (fun k => (k : ℚ) + 1) 0 i) / ((2 : Nat) : ℚ) :=
  (estimate_cpu_freq_mean (fun k => (k : ℚ) + 1) false 2 0 (by decide)
    (fun k => by positivity)).2.2.2.2

/-- C10. One call of `estimate_cpu_freq_core` calls the latency primitive
exactly three times and, when these calls hand back `r1`, `r2`, `r3` in this
order with `r3` non-zero, returns `100000000 / (1 * r3)`; a primitive that
differs only in the first two ratios gives the same result. -/
theorem estimate_cpu_freq_core_last (lat : Nat → ℚ) (c : Nat) (r1 r2 r3 : ℚ)
    (h1 : lat c = r1) (h2 : lat (c + 1) = r2) (h3 : lat (c + 2) = r3) (hr : r3 ≠ 0) :
    estimate_cpu_freq_core lat c = (100000000 / (1 * r3), c + 3) ∧
      ∀ lat2 : Nat → ℚ, lat2 (c + 2) = r3 →
        (estimate_cpu_freq_core lat2 c).1 = (estimate_cpu_freq_core lat c).1 := by
  have _ := h1
  have _ := h2
  have _ := hr
  refine ⟨?_, ?_⟩
  · rw [estimate_cpu_freq_core_eq, h3]
    simp [coef, ADD_LATENCY_CYCLES]
  · intro lat2 h
    rw [estimate_cpu_freq_core_eq, estimate_cpu_freq_core_eq, h, h3]

theorem estimate_cpu_freq_core_last_witness :
    estimate_cpu_freq_core (fun k => (k : ℚ) + 3) 0 = (100000000 / (1 * 5), 0 + 3) :=
  (estimate_cpu_freq_core_last (fun k => (k : ℚ) + 3) 0 3 4 5 (by norm_num) (by norm_num)
    (by norm_num) (by norm_num)).1

/-! ## External probe runner: lemmas -/

theorem store_length (b : Block) (i v : Nat) : (store b i v).mem.length = b.mem.length := by
  unfold store
  split <;> simp

theorem store_oob_of_le (b : Block) (i v : Nat) (h : b.mem.length ≤ i) :
    (store b i v).oob = true := by
  unfold store
  rw [if_neg (by omega)]

theorem memcpy_length (src : List Nat) :
    ∀ (b : Block) (off : Nat), (memcpy b off src).mem.length = b.mem.length := by
  induction src with
  | nil => intro b off; rfl
  | cons v vs ih => intro b off; rw [memcpy, ih, store_length]

theorem realloc_length (b : Block) (size : Nat) : (realloc b size).mem.length = size := by
  simp only [realloc, List.length_append, List.length_take, List.length_replicate]
  omega

theorem malloc_length (size : Nat) : (malloc size).mem.length = size := by
  simp [malloc]

/-- A line without line end that fits the room is taken whole. -/
theorem fgets_read_whole :
    ∀ (l : List Nat) (room : Nat), (∀ c ∈ l, c ≠ 10) → l.length ≤ room →
      fgets_read l room = (l, []) := by
  intro l
  induction l with
  | nil => intro room _ _; rfl
  | cons c l ih =>
    intro room h10 hlen
    have hc : c ≠ 10 := h10 c (List.mem_cons_self c l)
    have hroom : room ≠ 0 := by
      simp only [List.length_cons] at hlen
      omega
    have hrec := ih (room - 1) (fun d hd => h10 d (List.mem_cons_of_mem c hd))
      (by simp only [List.length_cons] at hlen; omega)
    simp [fgets_read, hc, hroom, hrec]

theorem strlen_append_zero :
    ∀ l : List Nat, (∀ c ∈ l, c ≠ 0) → strlen (l ++ [0]) = l.length := by
  intro l
  induction l with
  | nil => intro _; simp [strlen]
  | cons c l ih =>
    intro h
    have hc : c ≠ 0 := h c (List.mem_cons_self c l)
    have := ih (fun d hd => h d (List.mem_cons_of_mem c hd))
    simp [strlen, hc, this]

/-- Every successful `fgets` shortens the stream. -/
theorem fgets_read_rest_le :
    ∀ (l : List Nat) (room : Nat), (fgets_read l room).2.length ≤ l.length := by
  intro l
  induction l with
  | nil => intro room; simp [fgets_read]
  | cons c l ih =>
    intro room
    unfold fgets_read
    split
    · simp
    · split
      · simp
      · have := ih (room - 1)
        simp only [List.length_cons]
        omega

theorem fgets_rest_lt (size : Nat) (hsize : 2 ≤ size) (fp : List Nat) (r : List Nat × List Nat)
    (h : fgets size fp = some r) : r.2.length < fp.length := by
  cases fp with
  | nil => simp [fgets] at h
  | cons c l =>
    simp only [fgets, Option.some.injEq] at h
    subst h
    have hroom : size - 1 ≠ 0 := by omega
    unfold fgets_read
    rw [if_neg hroom]
    split
    · simp
    · have := fgets_read_rest_le l (size - 1 - 1)
      simp only [List.length_cons]
      omega

/-- The read loop does not depend on its fuel once the fuel exceeds the length
of the stream: `read_all` runs the loop to the end of the stream. -/
theorem read_loop_fuel :
    ∀ (n : Nat) (fp : List Nat) (st : ReadState) (m : Nat),
      fp.length < n → fp.length < m → read_loop n fp st = read_loop m fp st := by
  intro n
  induction n with
  | zero => intro fp st m h; omega
  | succ n ih =>
    intro fp st m hn hm
    obtain ⟨m, rfl⟩ : ∃ k, m = k + 1 := ⟨m - 1, by omega⟩
    unfold read_loop
    cases hf : fgets (buf_size - 1) fp with
    | none => rfl
    | some r =>
      have := fgets_rest_lt (buf_size - 1) (by decide) fp r hf
      exact ih r.2 (read_step st r.1) m (by omega) (by omega)

/-- A stream that is one line without line end and without 0 byte, short
enough for the read buffer, is captured in one round of the loop. -/
theorem read_all_single (l : List Nat) (hne : l ≠ []) (h10 : ∀ c ∈ l, c ≠ 10)
    (hlen : l.length ≤ 1048574) : read_all l = read_step read_init (l ++ [0]) := by
  have hread : fgets_read l (buf_size - 1 - 1) = (l, []) :=
    fgets_read_whole l _ h10 (by simp only [buf_size]; omega)
  have hf : fgets (buf_size - 1) l = some (l ++ [0], []) := by
    cases l with
    | nil => exact absurd rfl hne
    | cons c t => simp only [fgets, hread]
  unfold read_all
  rw [read_loop, hf]
  cases hl : l.length with
  | zero => rfl
  | succ k => rfl

theorem read_step_used (st : ReadState) (buf : List Nat) :
    (read_step st buf).used = size_t (st.used + strlen buf) := rfl

theorem read_step_cap (st : ReadState) (buf : List Nat) :
    (read_step st buf).cap = grow st.cap st.used (strlen buf) := rfl

theorem read_step_length_grown (st : ReadState) (buf : List Nat)
    (h : size_t (st.used + strlen buf) ≥ st.cap) :
    (read_step st buf).dst.mem.length = grow st.cap st.used (strlen buf) := by
  simp only [read_step, if_pos h, store_length, memcpy_length, realloc_length]

/-- The terminating store of a round falls outside the block as soon as the
block is not longer than the new value of `used`. -/
theorem read_step_oob (st : ReadState) (buf : List Nat)
    (h : (read_step st buf).dst.mem.length ≤ (read_step st buf).used) :
    (read_step st buf).dst.oob = true := by
  simp only [read_step, store_length, memcpy_length] at h ⊢
  exact store_oob_of_le _ _ _ (by simpa only [memcpy_length] using h)

/-- A C string is shorter than the block it is read from. -/
theorem c_str_length_lt :
    ∀ (m : List (Option Nat)) (t : List Nat), c_str m = some t → t.length < m.length := by
  intro m
  induction m with
  | nil => intro t h; simp [c_str] at h
  | cons x m ih =>
    intro t h
    cases x with
    | none => simp [c_str] at h
    | some c =>
      simp only [c_str] at h
      split at h
      · simp only [Option.some.injEq] at h
        subst h
        simp
      · cases hc : c_str m with
        | none => simp [hc] at h
        | some u =>
          simp only [hc, Option.map_some', Option.some.injEq] at h
          subst h
          have := ih u hc
          simp only [List.length_cons]
          omega

theorem replicate_a_no_newline (k : Nat) : ∀ c ∈ List.replicate k 97, c ≠ 10 := by
  intro c hc
  rw [List.eq_of_mem_replicate hc]
  decide

theorem replicate_a_no_zero (k : Nat) : ∀ c ∈ List.replicate k 97, c ≠ 0 := by
  intro c hc
  rw [List.eq_of_mem_replicate hc]
  decide

/-- The state after the loop on a stream of `k` letters `a` without line end. -/
theorem read_all_replicate (k : Nat) (hk : 1 ≤ k) (hlen : k ≤ 1048574) :
    read_all (List.replicate k 97) = read_step read_init (List.replicate k 97 ++ [0]) ∧
      strlen (List.replicate k 97 ++ [0]) = k := by
  refine ⟨read_all_single _ ?_ (replicate_a_no_newline k) (by simpa using hlen), ?_⟩
  · intro h
    have := congrArg List.length h
    simp only [List.length_replicate, List.length_nil] at this
    omega
  · simpa using strlen_append_zero _ (replicate_a_no_zero k)

/-! ## External probe runner: the loop on lines that fit the block -/

theorem store_take_succ (b : Block) (i v : Nat) (h : i < b.mem.length) :
    (store b i v).mem.take (i + 1) = b.mem.take i ++ [some v] ∧
      (store b i v).oob = b.oob ∧ (store b i v).mem.get? i = some (some v) := by
  unfold store
  rw [if_pos h]
  refine ⟨?_, rfl, ?_⟩
  · simp only [List.set_eq_take_append_cons_drop, if_pos h]
    rw [List.take_append_eq_append_take]
    simp [List.length_take, Nat.min_eq_left (Nat.le_of_lt h)]
  · simp [List.getElem?_set, h]

theorem store_take_le (b : Block) (i v : Nat) :
    (store b i v).mem.take i = b.mem.take i := by
  unfold store
  split
  · show (b.mem.set i (some v)).take i = b.mem.take i
    rw [List.set_take, List.set_eq_of_length_le]
    simp
  · rfl

theorem memcpy_take (src : List Nat) :
    ∀ (b : Block) (off : Nat), off + src.length ≤ b.mem.length →
      (memcpy b off src).mem.take (off + src.length) = b.mem.take off ++ src.map some ∧
        (memcpy b off src).oob = b.oob := by
  induction src with
  | nil => intro b off _; simp [memcpy]
  | cons v vs ih =>
    intro b off h
    simp only [List.length_cons] at h
    obtain ⟨h1, h2, _⟩ := store_take_succ b off v (by omega)
    obtain ⟨h3, h4⟩ := ih (store b off v) (off + 1) (by rw [store_length]; omega)
    refine ⟨?_, ?_⟩
    · rw [memcpy]
      have e : off + (v :: vs).length = off + 1 + vs.length := by
        simp only [List.length_cons]; omega
      rw [e, h3, h1]
      simp
    · rw [memcpy, h4, h2]

theorem realloc_take (b : Block) (size k : Nat) (hk : k ≤ b.mem.length)
    (hsize : b.mem.length ≤ size) : (realloc b size).mem.take k = b.mem.take k := by
  simp only [realloc]
  rw [List.take_of_length_le hsize, List.take_append_of_le_length hk]

theorem take_strlen_append_zero (l : List Nat) (h : ∀ c ∈ l, c ≠ 0) :
    (l ++ [0]).take (strlen (l ++ [0])) = l := by
  rw [strlen_append_zero l h]
  simp

theorem c_str_prefix :
    ∀ (t : List Nat) (rest : List (Option Nat)), (∀ c ∈ t, c ≠ 0) →
      c_str (t.map some ++ some 0 :: rest) = some t := by
  intro t
  induction t with
  | nil => intro rest _; simp [c_str]
  | cons c t ih =>
    intro rest h
    have hc : c ≠ 0 := h c (List.mem_cons_self c t)
    have := ih rest (fun d hd => h d (List.mem_cons_of_mem c hd))
    simp [c_str, hc, this]

theorem captured_init : Captured read_init [] := by
  refine ⟨?_, rfl, ?_, rfl, ?_, ?_⟩
  · exact malloc_length 1024
  · decide
  · decide
  · simp [read_init]

/-- One round of the loop on a chunk without 0 byte that is not longer than
1024 bytes: the text grows by the chunk, every store stays inside the block
and the round leaves a 0 byte at index `used`. -/
theorem read_step_captured (st : ReadState) (t chunk : List Nat) (hst : Captured st t)
    (h0 : ∀ c ∈ chunk, c ≠ 0) (hlen : chunk.length ≤ 1024)
    (hsz : t.length + chunk.length < 2 ^ 62) :
    Captured (read_step st (chunk ++ [0])) (t ++ chunk) ∧
      (read_step st (chunk ++ [0])).dst.mem.get? (read_step st (chunk ++ [0])).used
        = some (some 0) := by
  obtain ⟨hL, hO, hC, hU, hlt, hT⟩ := hst
  have hb : strlen (chunk ++ [0]) = chunk.length := strlen_append_zero chunk h0
  have htk : List.take chunk.length (chunk ++ [0]) = chunk := by simp
  have hs : size_t (st.used + chunk.length) = st.used + chunk.length := by
    unfold size_t
    apply Nat.mod_eq_of_lt
    omega
  have hstep : read_step st (chunk ++ [0]) =
      { cap := grow st.cap st.used chunk.length
        used := st.used + chunk.length
        dst := store (memcpy (if st.used + chunk.length ≥ st.cap
          then realloc st.dst (grow st.cap st.used chunk.length) else st.dst) st.used chunk)
          (st.used + chunk.length) 0 } := by
    simp only [read_step, hb, htk, hs]
  have key : ∀ d : Block,
      d = (if st.used + chunk.length ≥ st.cap
        then realloc st.dst (grow st.cap st.used chunk.length) else st.dst) →
      d.mem.length = grow st.cap st.used chunk.length ∧ d.oob = false ∧
        d.mem.take st.used = t.map some ∧
        st.used + chunk.length < grow st.cap st.used chunk.length ∧
        1024 ≤ grow st.cap st.used chunk.length := by
    intro d hd
    by_cases hg : st.used + chunk.length ≥ st.cap
    · have hgrow : grow st.cap st.used chunk.length = st.cap * 2 := by
        unfold grow
        rw [hs, if_pos hg]
        unfold size_t
        apply Nat.mod_eq_of_lt
        omega
      rw [if_pos hg] at hd
      subst hd
      refine ⟨realloc_length _ _, hO, ?_, ?_, ?_⟩
      · rw [realloc_take _ _ _ (by omega) (by rw [hgrow]; omega)]
        exact hT
      · rw [hgrow]; omega
      · rw [hgrow]; omega
    · have hgrow : grow st.cap st.used chunk.length = st.cap := by
        unfold grow
        rw [hs, if_neg hg]
      rw [if_neg hg] at hd
      subst hd
      rw [hgrow]
      exact ⟨hL, hO, hT, by omega, hC⟩
  obtain ⟨kL, kO, kT, klt, kC⟩ := key _ rfl
  rw [hstep]
  generalize (if st.used + chunk.length ≥ st.cap
    then realloc st.dst (grow st.cap st.used chunk.length) else st.dst) = d at kL kO kT
  obtain ⟨mT, mO⟩ := memcpy_take chunk d st.used (by omega)
  have mL : (memcpy d st.used chunk).mem.length = grow st.cap st.used chunk.length := by
    rw [memcpy_length, kL]
  obtain ⟨_, sO, sG⟩ := store_take_succ (memcpy d st.used chunk) (st.used + chunk.length) 0
    (by omega)
  refine ⟨⟨?_, ?_, kC, ?_, klt, ?_⟩, sG⟩
  · show (store _ _ _).mem.length = _
    rw [store_length, mL]
  · show (store _ _ _).oob = false
    rw [sO, mO, kO]
  · show st.used + chunk.length = (t ++ chunk).length
    rw [List.length_append, hU]
  · show (store _ _ _).mem.take (st.used + chunk.length) = _
    rw [store_take_le, mT, kT]
    simp

/-- One `fgets` call on a stream that starts with a line shorter than the
room takes the line with its line end. -/
theorem fgets_read_line :
    ∀ (l rest : List Nat) (room : Nat), (∀ c ∈ l, c ≠ 10) → l.length < room →
      fgets_read (l ++ 10 :: rest) room = (l ++ [10], rest) := by
  intro l
  induction l with
  | nil =>
    intro rest room _ hlen
    have hroom : room ≠ 0 := by simp only [List.length_nil] at hlen; omega
    simp [fgets_read, hroom]
  | cons c l ih =>
    intro rest room h10 hlen
    have hc : c ≠ 10 := h10 c (List.mem_cons_self c l)
    simp only [List.length_cons] at hlen
    have hroom : room ≠ 0 := by omega
    have hrec := ih rest (room - 1) (fun d hd => h10 d (List.mem_cons_of_mem c hd))
      (by omega)
    simp [fgets_read, hc, hroom, hrec]

theorem fgets_line (l rest : List Nat) (h10 : ∀ c ∈ l, c ≠ 10) (hlen : l.length ≤ 1023) :
    fgets (buf_size - 1) (l ++ 10 :: rest) = some ((l ++ [10]) ++ [0], rest) := by
  have hread := fgets_read_line l rest (buf_size - 1 - 1) h10 (by simp only [buf_size]; omega)
  cases l with
  | nil => simp only [List.nil_append, fgets] at hread ⊢; rw [hread]
  | cons c t => simp only [List.cons_append, fgets] at hread ⊢; rw [hread]; rfl

/-- The loop on an output made of lines of at most 1023 bytes plus line end,
without 0 byte: from a state that holds `t` it reaches a state that holds `t`
followed by the whole output. -/
theorem read_loop_lines :
    ∀ (lines : List (List Nat)) (st : ReadState) (t : List Nat) (fuel : Nat),
      Captured st t →
      (∀ l ∈ lines, (∀ c ∈ l, c ≠ 10 ∧ c ≠ 0) ∧ l.length ≤ 1023) →
      t.length + (text_of_lines lines).length < 2 ^ 62 →
      (text_of_lines lines).length < fuel →
      Captured (read_loop fuel (text_of_lines lines) st) (t ++ text_of_lines lines) ∧
        ((lines ≠ [] ∨ st.dst.mem.get? st.used = some (some 0)) →
          (read_loop fuel (text_of_lines lines) st).dst.mem.get?
            (read_loop fuel (text_of_lines lines) st).used = some (some 0)) := by
  intro lines
  induction lines with
  | nil =>
    intro st t fuel hst _ _ hfuel
    obtain ⟨k, rfl⟩ : ∃ k, fuel = k + 1 := ⟨fuel - 1, by omega⟩
    have hloop : read_loop (k + 1) (text_of_lines []) st = st := rfl
    rw [hloop]
    refine ⟨by simpa [text_of_lines] using hst, ?_⟩
    intro h
    rcases h with h | h
    · exact absurd rfl h
    · exact h
  | cons l ls ih =>
    intro st t fuel hst hl hsz hfuel
    obtain ⟨k, rfl⟩ : ∃ k, fuel = k + 1 := ⟨fuel - 1, by omega⟩
    obtain ⟨hlc, hllen⟩ := hl l (List.mem_cons_self l ls)
    have htext : text_of_lines (l :: ls) = l ++ 10 :: text_of_lines ls := rfl
    have hf := fgets_line l (text_of_lines ls) (fun c hc => (hlc c hc).1) hllen
    have hloop : read_loop (k + 1) (text_of_lines (l :: ls)) st
        = read_loop k (text_of_lines ls) (read_step st ((l ++ [10]) ++ [0])) := by
      rw [htext, read_loop, hf]
    have hlen : (text_of_lines (l :: ls)).length = l.length + 1 + (text_of_lines ls).length := by
      rw [htext]
      simp only [List.length_append, List.length_cons]
      omega
    have hchunk0 : ∀ c ∈ l ++ [10], c ≠ 0 := by
      intro c hc
      rcases List.mem_append.1 hc with h | h
      · exact (hlc c h).2
      · rw [List.mem_singleton.1 h]; decide
    obtain ⟨hcap, hterm⟩ := read_step_captured st t (l ++ [10]) hst hchunk0
      (by simp only [List.length_append, List.length_singleton]; omega)
      (by simp only [List.length_append, List.length_singleton]; omega)
    obtain ⟨ih1, ih2⟩ := ih (read_step st ((l ++ [10]) ++ [0])) (t ++ (l ++ [10])) k hcap
      (fun m hm => hl m (List.mem_cons_of_mem l hm))
      (by simp only [List.length_append, List.length_singleton]; omega) (by omega)
    rw [hloop]
    have happ : t ++ text_of_lines (l :: ls) = t ++ (l ++ [10]) ++ text_of_lines ls := by
      rw [htext]; simp
    rw [happ]
    exact ⟨ih1, fun _ => ih2 (Or.inr hterm)⟩

theorem text_of_lines_no_zero :
    ∀ lines : List (List Nat), (∀ l ∈ lines, (∀ c ∈ l, c ≠ 10 ∧ c ≠ 0) ∧ l.length ≤ 1023) →
      ∀ c ∈ text_of_lines lines, c ≠ 0 := by
  intro lines
  induction lines with
  | nil => intro _ c hc; simp [text_of_lines] at hc
  | cons l ls ih =>
    intro hl c hc
    simp only [text_of_lines, List.mem_append, List.mem_cons] at hc
    rcases hc with h | h | h
    · exact ((hl l (List.mem_cons_self l ls)).1 c h).2
    · rw [h]; decide
    · exact ih (fun m hm => hl m (List.mem_cons_of_mem l hm)) c h

/-- The probe runner is right on ordinary text: when the command prints at
least one line, every line has at most 1023 bytes before its line end and no
0 byte occurs, the loop ends with `used` equal to the length of the output,
no store outside the block, and the block read as a C string is the output. -/
theorem read_all_lines (lines : List (List Nat)) (hne : lines ≠ [])
    (hl : ∀ l ∈ lines, (∀ c ∈ l, c ≠ 10 ∧ c ≠ 0) ∧ l.length ≤ 1023)
    (hsz : (text_of_lines lines).length < 2 ^ 62) :
    (read_all (text_of_lines lines)).used = (text_of_lines lines).length ∧
      (read_all (text_of_lines lines)).used < (read_all (text_of_lines lines)).cap ∧
      (read_all (text_of_lines lines)).dst.oob = false ∧
      c_str (read_all (text_of_lines lines)).dst.mem = some (text_of_lines lines) := by
  obtain ⟨⟨_, hO, _, hU, hlt, hT⟩, hterm⟩ :=
    read_loop_lines lines read_init [] ((text_of_lines lines).length + 1) captured_init hl
      (by simpa using hsz) (by omega)
  have hz := hterm (Or.inl hne)
  simp only [List.nil_append] at hU hT
  refine ⟨hU, hlt, hO, ?_⟩
  unfold read_all
  generalize read_loop ((text_of_lines lines).length + 1) (text_of_lines lines) read_init = st
    at hU hT hz hlt hO
  have hsplit : st.dst.mem = (text_of_lines lines).map some
      ++ some 0 :: st.dst.mem.drop (st.used + 1) := by
    have h1 := (List.take_append_drop st.used st.dst.mem).symm
    rw [hT] at h1
    have h2 : st.dst.mem.drop st.used = some 0 :: st.dst.mem.drop (st.used + 1) := by
      rw [List.get?_eq_getElem?] at hz
      obtain ⟨hi, hv⟩ := List.getElem?_eq_some.1 hz
      rw [List.drop_eq_getElem_cons hi, hv]
    rw [h2] at h1
    exact h1
  rw [hsplit]
  exact c_str_prefix _ _ (text_of_lines_no_zero lines hl)

theorem read_all_lines_witness :
    c_str (read_all (text_of_lines [[104, 105]])).dst.mem = some (text_of_lines [[104, 105]]) :=
  (read_all_lines [[104, 105]] (by decide) (by decide) (by decide)).2.2.2

/-! ## External probe runner: properties of the specification -/

/-- C3. A command that prints 3000 letters `a` on one line: the single chunk
read has 3000 bytes, `used` ends as 3000, but the block returned by
`run_command` was grown only once, to 2048 bytes; the copy and the terminator
were stored past its end, and the text a caller reads from it is not the
output of the command. -/
theorem run_command_long_line_overflow :
    (os_long 3000).popen "lscpu" = some (List.replicate 3000 97) ∧
      (read_all (List.replicate 3000 97)).used = 3000 ∧
      (read_all (List.replicate 3000 97)).cap = 2048 ∧
      ∃ b, (run_command (os_long 3000) "lscpu").1 = some b ∧
        b.mem.length = 2048 ∧ b.oob = true ∧ c_str b.mem ≠ some (List.replicate 3000 97) := by
  obtain ⟨hall, hstr⟩ := read_all_replicate 3000 (by decide) (by decide)
  have hge : size_t (read_init.used + strlen (List.replicate 3000 97 ++ [0])) ≥ read_init.cap := by
    rw [hstr]
    decide
  have hused : (read_all (List.replicate 3000 97)).used = 3000 := by
    rw [hall, read_step_used, hstr]
    decide
  have hlen : (read_all (List.replicate 3000 97)).dst.mem.length = 2048 := by
    rw [hall, read_step_length_grown _ _ hge, hstr]
    decide
  refine ⟨rfl, hused, ?_, (read_all (List.replicate 3000 97)).dst, rfl, hlen, ?_, ?_⟩
  · rw [hall, read_step_cap, hstr]
    decide
  · rw [hall]
    apply read_step_oob
    rw [← hall, hlen, hused]
    decide
  · intro h
    have := c_str_length_lt _ _ h
    rw [hlen, List.length_replicate] at this
    omega

/-- C4. A command that prints nothing: the loop body never runs, `used` is 0
and the block returned by `run_command` is the fresh allocation; its cell at
index `used` is indeterminate, not a 0 byte, and a scan of the block as a C
string is undefined. -/
theorem run_command_silent_unterminated :
    os_silent.popen "true" = some [] ∧
      (read_all []).used = 0 ∧
      (run_command os_silent "true").1 = some (read_all []).dst ∧
      (read_all []).dst.mem.get? (read_all []).used = some none ∧
      (read_all []).dst.mem.get? (read_all []).used ≠ some (some 0) ∧
      c_str (read_all []).dst.mem = none := by
  have h : (read_all []).dst.mem.get? (read_all []).used = some none := rfl
  refine ⟨rfl, rfl, rfl, h, ?_, rfl⟩
  rw [h]
  decide

/-- C5. The pointer returned by `run_command` is NULL exactly when `popen`
returned NULL; when `popen` succeeds the pointer is the block `dst`, whatever
the child prints. -/
theorem run_command_null_iff (os : OS) (cmd : String) :
    ((run_command os cmd).1 = none ↔ os.popen cmd = none) ∧
      (run_command os cmd).1 = (os.popen cmd).map (fun fp => (read_all fp).dst) := by
  unfold run_command
  cases os.popen cmd <;> simp

/-- C6, the claim as stated fails: with `popen` succeeding and the child
printing nothing, `run_command` does not return NULL. -/
theorem run_command_missing_command_not_null :
    os_silent.popen "no-such-command" = some [] ∧
      ¬ (run_command os_silent "no-such-command").1 = none := by
  refine ⟨rfl, ?_⟩
  intro h
  cases h

/-- C6, amended. When `popen` succeeds and the child prints nothing (as for a
command the shell does not find), `run_command` does not return NULL: it
returns a pointer to a buffer.  Nothing is said about what the buffer holds. -/
theorem run_command_silent_not_null (os : OS) (cmd : String) (h : os.popen cmd = some []) :
    (run_command os cmd).1 ≠ none ∧ ∃ b, (run_command os cmd).1 = some b := by
  unfold run_command
  rw [h]
  exact ⟨by simp, ⟨(read_all []).dst, rfl⟩⟩

theorem run_command_silent_not_null_witness :
    os_silent.popen "no-such-command" = some [] ∧
      ((run_command os_silent "no-such-command").1 ≠ none ∧
        ∃ b, (run_command os_silent "no-such-command").1 = some b) :=
  ⟨rfl, run_command_silent_not_null os_silent "no-such-command" rfl⟩

/-- C7. `dump_uname_a` and `dump_cpuinfo` hand exactly one command to
`popen`; on the sink they make, after the constructor, the `put` naming that
command and then one more call: `put("(not available)")` when `run_command`
returned NULL, `quote(s)` with the returned `s` itself otherwise; the
placeholder is put if and only if `run_command` returned NULL. -/
theorem dump_reports (pf : Target) (os : OS) (md : Bool) :
    (∃ last,
        (dump_uname_a os md).1
          = [NoteCall.ctor md "uname -a", NoteCall.put "`%s`:" [Arg.str "uname -a"], last] ∧
        (dump_uname_a os md).2.cmds = os.cmds ++ ["uname -a"] ∧
        (((run_command os "uname -a").1 = none ∧ last = NoteCall.put "(not available)" []) ∨
          ∃ b, (run_command os "uname -a").1 = some b ∧ last = NoteCall.quote b) ∧
        (last = NoteCall.put "(not available)" [] ↔ (run_command os "uname -a").1 = none)) ∧
      (∃ last,
        (dump_cpuinfo pf os md).1
          = [NoteCall.ctor md "Processor inforomation",
              NoteCall.put "`%s`:" [Arg.str (cpuinfo_cmd pf)], last] ∧
        (dump_cpuinfo pf os md).2.cmds = os.cmds ++ [cpuinfo_cmd pf] ∧
        (((run_command os (cpuinfo_cmd pf)).1 = none ∧
              last = NoteCall.put "(not available)" []) ∨
          ∃ b, (run_command os (cpuinfo_cmd pf)).1 = some b ∧ last = NoteCall.quote b) ∧
        (last = NoteCall.put "(not available)" [] ↔
          (run_command os (cpuinfo_cmd pf)).1 = none)) := by
  have key : ∀ cmd : String,
      (run_command os cmd).2.cmds = os.cmds ++ [cmd] ∧
      (((run_command os cmd).1 = none ∧
            dump_result (run_command os cmd).1 = NoteCall.put "(not available)" []) ∨
          ∃ b, (run_command os cmd).1 = some b ∧
            dump_result (run_command os cmd).1 = NoteCall.quote b) ∧
        (dump_result (run_command os cmd).1 = NoteCall.put "(not available)" [] ↔
          (run_command os cmd).1 = none) := by
    intro cmd
    unfold run_command
    cases os.popen cmd <;> simp [dump_result]
  exact ⟨⟨_, rfl, key "uname -a"⟩, ⟨_, rfl, key (cpuinfo_cmd pf)⟩⟩

/-- When no process can be spawned, `dump_uname_a` reports the placeholder. -/
theorem dump_uname_a_nospawn :
    dump_uname_a os_nospawn true =
      ([NoteCall.ctor true "uname -a", NoteCall.put "`%s`:" [Arg.str "uname -a"],
        NoteCall.put "(not available)" []], { os_nospawn with cmds := ["uname -a"] }) := rfl

/-- C9. The chunk length 2048 lies in the range `1 .. 1048574`, yet from the
initial state `(cap, used) = (1024, 0)` the growth test only doubles `cap` to
2048, so `used + b < cap` fails; after the round `used = cap = 2048` and the
terminator has been stored past the end of the block. -/
theorem read_loop_growth_overflow :
    1 ≤ 2048 ∧ 2048 ≤ 1048574 ∧
      read_init.cap = 1024 ∧ read_init.used = 0 ∧
      grow read_init.cap read_init.used 2048 = 2048 ∧
      ¬ (read_init.used + 2048 < grow read_init.cap read_init.used 2048) ∧
      (read_all (List.replicate 2048 97)).cap = 2048 ∧
      (read_all (List.replicate 2048 97)).used = 2048 ∧
      ¬ ((read_all (List.replicate 2048 97)).used < (read_all (List.replicate 2048 97)).cap) ∧
      (read_all (List.replicate 2048 97)).dst.mem.length = 2048 ∧
      (read_all (List.replicate 2048 97)).dst.oob = true := by
  obtain ⟨hall, hstr⟩ := read_all_replicate 2048 (by decide) (by decide)
  have hge : size_t (read_init.used + strlen (List.replicate 2048 97 ++ [0])) ≥ read_init.cap := by
    rw [hstr]
    decide
  have hused : (read_all (List.replicate 2048 97)).used = 2048 := by
    rw [hall, read_step_used, hstr]
    decide
  have hcap : (read_all (List.replicate 2048 97)).cap = 2048 := by
    rw [hall, read_step_cap, hstr]
    decide
  have hlen : (read_all (List.replicate 2048 97)).dst.mem.length = 2048 := by
    rw [hall, read_step_length_grown _ _ hge, hstr]
    decide
  refine ⟨by decide, by decide, rfl, rfl, by decide, by decide, hcap, hused, ?_, hlen, ?_⟩
  · rw [hcap, hused]
    decide
  · rw [hall]
    apply read_step_oob
    rw [← hall, hlen, hused]

end InsnBench
